import Mathlib

/-!
Verification of the editing core of the miu text editor.

The development embeds the C++ data structures and operations of the editor
(piece table, line index, cursor set, undo/redo log, edit intents) as Lean
definitions and proves the specified properties about them.

Modelling conventions:
* bytes are `Nat` values (the editor works on raw UTF-8 bytes; `'\n' = 10`,
  `' ' = 32`);
* the read-only original mapping (`origPtr`/`origSize`) and the append-only
  add buffer are `List Nat`;
* `size_t` positions are `Nat`; the one place the source casts through
  `long long` (cursor shifting in `moveLines`) is modelled with `Int` and
  `Int.toNat`, matching the cast for all in-range values;
* the pixel-coordinate cursor field `desiredX` (a `float` fed by the
  DirectWrite layout oracle) carries no byte-level information and is omitted
  from the cursor record; no verified property reads it;
* the `std::regex` engine is external library code, not editor code; it is
  modelled as an abstract `RegexEngine` whose `compile` returns `none`
  exactly when the C++ constructor would throw (the `catch (...)` paths).
-/

namespace Miu

/-- Piece of the piece table: a descriptor `{isOriginal, start, len}`
pointing into either the original mapping or the add buffer. -/
structure Piece where
  isOriginal : Bool
  start : Nat
  len : Nat
deriving Repr, DecidableEq

/-- PieceTable state: original buffer, append-only add buffer, and the
ordered piece sequence. -/
structure PieceTable where
  orig : List Nat
  addBuf : List Nat
  pieces : List Piece
deriving Repr, DecidableEq

/-- Bytes denoted by one piece, relative to explicit buffers. -/
def pieceBytesIn (o a : List Nat) (p : Piece) : List Nat :=
  ((if p.isOriginal then o else a).drop p.start).take p.len

/-- Concatenated bytes of a piece sequence relative to explicit buffers. -/
def piecesContent (o a : List Nat) : List Piece → List Nat
  | [] => []
  | p :: rest => pieceBytesIn o a p ++ piecesContent o a rest

/-- Document bytes denoted by a piece table: the pieces resolved in order. -/
def PieceTable.content (pt : PieceTable) : List Nat :=
  piecesContent pt.orig pt.addBuf pt.pieces

/-- Sum of the piece lengths (specification-side accumulator). -/
def sumLens (ps : List Piece) : Nat := (ps.map Piece.len).sum

/-- PieceTable::length, the running sum `for (auto& p : pieces) s += p.len`. -/
def PieceTable.length (pt : PieceTable) : Nat :=
  pt.pieces.foldl (fun s p => s + p.len) 0

/-- PieceTable::initEmpty. -/
def PieceTable.initEmpty : PieceTable :=
  { orig := [], addBuf := [], pieces := [] }

/-- PieceTable::initFromFile: seed from a mapped buffer; a single Original
piece when the mapping is non-empty. -/
def PieceTable.initFromFile (data : List Nat) : PieceTable :=
  { orig := data, addBuf := [],
    pieces := if 0 < data.length then [⟨true, 0, data.length⟩] else [] }

/-- Mergeability test from PieceTable::coalesceAround: adjacent Added pieces
whose ranges in the add buffer are contiguous. -/
def canMerge (a b : Piece) : Bool :=
  !a.isOriginal && !b.isOriginal && a.start + a.len == b.start

/-- Merge the pieces at positions `i` and `i+1` when they are mergeable
(the in-place `a.len += b.len; pieces.erase(idx)` of coalesceAround). -/
def mergeAt : Nat → List Piece → List Piece
  | 0, a :: b :: rest =>
      if canMerge a b then ⟨false, a.start, a.len + b.len⟩ :: rest else a :: b :: rest
  | i + 1, a :: rest => a :: mergeAt i rest
  | _, ps => ps

/-- Whether the pieces at positions `i` and `i+1` exist and are mergeable. -/
def mergeableAt (ps : List Piece) (i : Nat) : Bool :=
  match ps.get? i, ps.get? (i + 1) with
  | some a, some b => canMerge a b
  | _, _ => false

/-- PieceTable::coalesceAround: clamp the index, merge with the previous
piece (decrementing the index on success), then merge with the next. -/
def coalesceAround (idx : Nat) (ps : List Piece) : List Piece :=
  if ps.isEmpty then ps
  else if 0 < min idx (ps.length - 1) ∧ mergeableAt ps (min idx (ps.length - 1) - 1) then
    mergeAt (min idx (ps.length - 1) - 1) (mergeAt (min idx (ps.length - 1) - 1) ps)
  else mergeAt (min idx (ps.length - 1)) ps

/-- Core of PieceTable::insert: walk the pieces while `cur + len < pos`,
split the piece containing `pos` when the offset is strictly interior,
and place the new piece; also returns the index of the new piece, which
the source passes to coalesceAround. -/
def insertPiecesAux (newP : Piece) : List Piece → Nat → List Piece × Nat
  | [], _ => ([newP], 0)
  | p :: rest, pos =>
      if p.len < pos then
        let r := insertPiecesAux newP rest (pos - p.len)
        (p :: r.1, r.2 + 1)
      else if 0 < pos ∧ pos < p.len then
        (⟨p.isOriginal, p.start, pos⟩ :: newP ::
          ⟨p.isOriginal, p.start + pos, p.len - pos⟩ :: rest, 1)
      else if pos = p.len then (p :: newP :: rest, 1)
      else (newP :: p :: rest, 0)

/-- PieceTable::insert: append the payload to the add buffer, splice a new
Added piece at the byte position, and coalesce around it. Empty payloads
return immediately. -/
def PieceTable.insert (pt : PieceTable) (pos : Nat) (s : List Nat) : PieceTable :=
  if s.isEmpty then pt
  else
    let newP : Piece := ⟨false, pt.addBuf.length, s.length⟩
    let r := insertPiecesAux newP pt.pieces pos
    { orig := pt.orig, addBuf := pt.addBuf ++ s, pieces := coalesceAround r.2 r.1 }

/-- Removal loop of PieceTable::erase: `while (idx < size && remaining > 0)`
drop whole pieces that fit in the remaining count, otherwise trim the
front of the piece. -/
def eraseRun : List Piece → Nat → List Piece
  | [], _ => []
  | p :: rest, n =>
      if n = 0 then p :: rest
      else if p.len ≤ n then eraseRun rest (n - p.len)
      else ⟨p.isOriginal, p.start + n, p.len - n⟩ :: rest

/-- Walk of PieceTable::erase: skip pieces while `cur + len <= pos`; `none`
means the walk ran off the end (`idx >= pieces.size()`), where the source
returns with the table untouched. On success it returns the new piece list
together with the index just after the erased region (the index the source
hands to coalesceAround). -/
def eraseGo : List Piece → Nat → Nat → Option (List Piece × Nat)
  | [], _, _ => none
  | p :: rest, pos, n =>
      if p.len ≤ pos then
        match eraseGo rest (pos - p.len) n with
        | none => none
        | some r => some (p :: r.1, r.2 + 1)
      else
        if 0 < pos then
          some (⟨p.isOriginal, p.start, pos⟩ ::
            eraseRun (⟨p.isOriginal, p.start + pos, p.len - pos⟩ :: rest) n, 1)
        else some (eraseRun (p :: rest) n, 0)

/-- PieceTable::erase: zero counts return immediately; a walk past the end
returns the table untouched; otherwise split, remove, and coalesce at
`idx > 0 ? idx - 1 : 0`. -/
def PieceTable.erase (pt : PieceTable) (pos count : Nat) : PieceTable :=
  if count = 0 then pt
  else
    match eraseGo pt.pieces pos count with
    | none => pt
    | some r =>
        { orig := pt.orig, addBuf := pt.addBuf,
          pieces := coalesceAround (if 0 < r.2 then r.2 - 1 else 0) r.1 }

/-- PieceTable::charAt: walk the pieces; out-of-range positions fall through
the loop and return the space byte. In-piece reads index the backing
buffer (in-bounds in every reachable state; the default value is
irrelevant there). -/
def charAtGo (o a : List Nat) : List Piece → Nat → Nat
  | [], _ => 32
  | p :: rest, pos =>
      if p.len ≤ pos then charAtGo o a rest (pos - p.len)
      else (if p.isOriginal then o else a).getD (p.start + pos) 0

/-- PieceTable::charAt as a total function on the table. -/
def PieceTable.charAt (pt : PieceTable) (pos : Nat) : Nat :=
  charAtGo pt.orig pt.addBuf pt.pieces pos

/-- Copy loop of PieceTable::getRange: skip pieces while `cur + len <= pos`,
then append `min(p.len - localStart, count - out.size())` bytes from each
piece, stopping at a zero take or once `count` bytes are gathered. -/
def getRangeGo (o a : List Nat) : List Piece → Nat → Nat → List Nat → List Nat
  | [], _, _, out => out
  | p :: rest, pos, count, out =>
      if p.len ≤ pos then getRangeGo o a rest (pos - p.len) count out
      else
        let tk := min (p.len - pos) (count - out.length)
        if tk = 0 then out
        else
          let out2 := out ++ (((if p.isOriginal then o else a).drop (p.start + pos)).take tk)
          if count ≤ out2.length then out2 else getRangeGo o a rest 0 count out2

/-- PieceTable::getRange. -/
def PieceTable.getRange (pt : PieceTable) (pos count : Nat) : List Nat :=
  getRangeGo pt.orig pt.addBuf pt.pieces pos count []

/-- Bounds discipline for a piece list over explicit buffers: every piece
references bytes inside its backing buffer. -/
def BoundedIn (o a : List Nat) (ps : List Piece) : Prop :=
  ∀ p ∈ ps, p.start + p.len ≤ (if p.isOriginal then o else a).length

/-- Well-bounded piece table. -/
def PieceTable.Bounded (pt : PieceTable) : Prop :=
  BoundedIn pt.orig pt.addBuf pt.pieces

instance : DecidablePred (fun pt : PieceTable => pt.Bounded) := fun pt => by
  unfold PieceTable.Bounded BoundedIn
  infer_instance

/-- Positivity of every piece length, the invariant claimed in §8. -/
def PosLens (ps : List Piece) : Prop := ∀ p ∈ ps, 0 < p.len

/-- States reachable through the public PieceTable interface. -/
inductive Reachable : PieceTable → Prop
  | initEmpty : Reachable PieceTable.initEmpty
  | initFromFile (data : List Nat) : Reachable (PieceTable.initFromFile data)
  | insert (pos : Nat) (s : List Nat) {pt : PieceTable} :
      Reachable pt → Reachable (pt.insert pos s)
  | erase (pos count : Nat) {pt : PieceTable} :
      Reachable pt → Reachable (pt.erase pos count)

/-- Newline scan of Editor::rebuildLineStarts: walk every byte of every
piece in document order (which is exactly the content byte sequence) and
record `g + 1` for each newline byte found at global offset `g`. -/
def lineStartsFromBytes : List Nat → Nat → List Nat
  | [], _ => []
  | b :: rest, g =>
      if b = 10 then (g + 1) :: lineStartsFromBytes rest (g + 1)
      else lineStartsFromBytes rest (g + 1)

/-- Editor::rebuildLineStarts: the index starts with 0 and then holds one
entry per newline (the display-width bookkeeping of the source is UI-only
and omitted). -/
def rebuildLineStarts (pt : PieceTable) : List Nat :=
  0 :: lineStartsFromBytes pt.content 0

/-- Cursor record. The source additionally stores `desiredX : float`, a
pixel coordinate produced by the DirectWrite layout oracle; it carries no
byte-level information and no verified property reads it, so it is omitted
(see the module comment). -/
structure Cursor where
  head : Nat
  anchor : Nat
deriving Repr, DecidableEq

/-- Cursor::start. -/
def Cursor.start (c : Cursor) : Nat := min c.head c.anchor

/-- Cursor::end (`end` is reserved in Lean). -/
def Cursor.endPos (c : Cursor) : Nat := max c.head c.anchor

/-- Cursor::hasSelection. -/
def Cursor.hasSelection (c : Cursor) : Bool := c.head != c.anchor

/-- EditOp::Type. -/
inductive EditOpType
  | Insert
  | Erase
deriving Repr, DecidableEq

/-- EditOp: one primitive edit with its payload bytes. -/
structure EditOp where
  type : EditOpType
  pos : Nat
  text : List Nat
deriving Repr, DecidableEq

/-- EditBatch: an atomic group of ops plus both cursor snapshots. -/
structure EditBatch where
  ops : List EditOp
  beforeCursors : List Cursor
  afterCursors : List Cursor
deriving Repr, DecidableEq

/-- Default batch used where C++ reads `back()` under a non-emptiness
guard. -/
def emptyBatch : EditBatch := ⟨[], [], []⟩

/-- UndoManager state; `savePoint` is the C++ `int` (it can hold the
sentinel -1). -/
structure UndoManager where
  undoStack : List EditBatch
  redoStack : List EditBatch
  savePoint : Int
deriving Repr, DecidableEq

/-- UndoManager::clear. -/
def UndoManager.clear : UndoManager := ⟨[], [], 0⟩

/-- UndoManager::markSaved. -/
def UndoManager.markSaved (u : UndoManager) : UndoManager :=
  { u with savePoint := (u.undoStack.length : Int) }

/-- UndoManager::isModified. -/
def UndoManager.isModified (u : UndoManager) : Bool :=
  (u.undoStack.length : Int) != u.savePoint

/-- UndoManager::push: mark the save point unreachable when it lies beyond
the current stack, append the batch, clear redo. -/
def UndoManager.push (u : UndoManager) (b : EditBatch) : UndoManager :=
  { undoStack := u.undoStack ++ [b],
    redoStack := [],
    savePoint := if (u.undoStack.length : Int) < u.savePoint then -1 else u.savePoint }

/-- UndoManager::canUndo. -/
def UndoManager.canUndo (u : UndoManager) : Bool := !u.undoStack.isEmpty

/-- UndoManager::canRedo. -/
def UndoManager.canRedo (u : UndoManager) : Bool := !u.redoStack.isEmpty

/-- UndoManager::popUndo: move the top undo batch to the redo stack and
return it (callers guard with canUndo). -/
def UndoManager.popUndo (u : UndoManager) : UndoManager × EditBatch :=
  let e := u.undoStack.getLastD emptyBatch
  (⟨u.undoStack.dropLast, u.redoStack ++ [e], u.savePoint⟩, e)

/-- UndoManager::popRedo. -/
def UndoManager.popRedo (u : UndoManager) : UndoManager × EditBatch :=
  let e := u.redoStack.getLastD emptyBatch
  (⟨u.undoStack ++ [e], u.redoStack.dropLast, u.savePoint⟩, e)

/-- One step of UndoManager evolution without markSaved: push, or a guarded
undo/redo pop (the Editor always guards the pops with canUndo/canRedo). -/
inductive UMStep : UndoManager → UndoManager → Prop
  | push (u : UndoManager) (b : EditBatch) : UMStep u (u.push b)
  | undo (u : UndoManager) : u.canUndo = true → UMStep u u.popUndo.1
  | redo (u : UndoManager) : u.canRedo = true → UMStep u u.popRedo.1

/-- Editor state: the fields of the C++ Editor that carry document or edit
state (graphics, scrolling, IME and dialog fields are display-only and
omitted). -/
structure EditorSt where
  pt : PieceTable
  undo : UndoManager
  cursors : List Cursor
  pendingPadding : EditBatch
  lineStarts : List Nat
  isDirty : Bool
  searchQuery : List Nat
  replaceQuery : List Nat
  searchMatchCase : Bool
  searchWholeWord : Bool
  searchRegex : Bool
deriving Repr, DecidableEq

/-- Forward application of one EditOp, as Editor::performRedo replays it. -/
def applyFwdOp (pt : PieceTable) (o : EditOp) : PieceTable :=
  match o.type with
  | EditOpType.Insert => pt.insert o.pos o.text
  | EditOpType.Erase => pt.erase o.pos o.text.length

/-- Inverse application of one EditOp, as Editor::performUndo replays it. -/
def applyInvOp (pt : PieceTable) (o : EditOp) : PieceTable :=
  match o.type with
  | EditOpType.Insert => pt.erase o.pos o.text.length
  | EditOpType.Erase => pt.insert o.pos o.text

/-- Redo replay: ops in stored order. -/
def applyFwdOps (pt : PieceTable) (ops : List EditOp) : PieceTable :=
  ops.foldl applyFwdOp pt

/-- Undo replay: ops from last to first, each inverted. -/
def applyInvOps (pt : PieceTable) (ops : List EditOp) : PieceTable :=
  ops.reverse.foldl applyInvOp pt

/-- Editor::performUndo: pop a batch, replay inverted in reverse, restore
the before-cursors, rebuild the line index, recompute the dirty flag. -/
def performUndo (st : EditorSt) : EditorSt :=
  if st.undo.canUndo = false then st
  else
    let r := st.undo.popUndo
    let pt2 := applyInvOps st.pt r.2.ops
    { st with
      pt := pt2
      undo := r.1
      cursors := r.2.beforeCursors
      lineStarts := rebuildLineStarts pt2
      isDirty := r.1.isModified }

/-- Editor::performRedo: pop a batch from redo, replay in stored order,
restore the after-cursors. -/
def performRedo (st : EditorSt) : EditorSt :=
  if st.undo.canRedo = false then st
  else
    let r := st.undo.popRedo
    let pt2 := applyFwdOps st.pt r.2.ops
    { st with
      pt := pt2
      undo := r.1
      cursors := r.2.afterCursors
      lineStarts := rebuildLineStarts pt2
      isDirty := r.1.isModified }

/-- Batches that an edit intent can actually record from a given table:
each op, read in order, is consistent with the table it is applied to (an
Insert position is in range, and an Erase stores exactly the bytes it
removes, as every intent does via getRange). -/
inductive ValidOps : PieceTable → List EditOp → Prop
  | nil (pt : PieceTable) : ValidOps pt []
  | insert (pt : PieceTable) (pos : Nat) (text : List Nat) (rest : List EditOp) :
      pos ≤ pt.length → ValidOps (pt.insert pos text) rest →
      ValidOps pt (⟨EditOpType.Insert, pos, text⟩ :: rest)
  | erase (pt : PieceTable) (pos : Nat) (text : List Nat) (rest : List EditOp) :
      text = (pt.content.drop pos).take text.length →
      ValidOps (pt.erase pos text.length) rest →
      ValidOps pt (⟨EditOpType.Erase, pos, text⟩ :: rest)

/-- Editor::commitPadding: push any pending virtual-space padding batch and
clear it. -/
def commitPadding (st : EditorSt) : EditorSt :=
  if st.pendingPadding.ops.isEmpty then st
  else { st with undo := st.undo.push st.pendingPadding, pendingPadding := emptyBatch }

/-- Descending insertion by key; ties keep the earlier index first (a
deterministic refinement of std::sort, whose tie order is unspecified; no
verified property involves equal cursor starts). -/
def insertIdxDesc (key : Nat → Nat) (i : Nat) : List Nat → List Nat
  | [] => [i]
  | j :: rest => if key j ≤ key i then i :: j :: rest else j :: insertIdxDesc key i rest

/-- Insertion sort by key, descending. -/
def sortIdxDesc (key : Nat → Nat) : List Nat → List Nat
  | [] => []
  | i :: rest => insertIdxDesc key i (sortIdxDesc key rest)

/-- Key used by the edit intents: the cursor start offset. -/
def cursorStartKey (cs : List Cursor) (i : Nat) : Nat := (cs.getD i ⟨0, 0⟩).start

/-- Index order used by the intents: cursor indices sorted by start,
descending. -/
def sortedIndicesByStartDesc (cs : List Cursor) : List Nat :=
  sortIdxDesc (cursorStartKey cs) (List.range cs.length)

/-- Selection-erase pass of Editor::insertAtCursors for one cursor index:
delete the selected range, record the op, shift every cursor after the
erase start left by the erased length, and collapse the owner at the
start. -/
def erasePhaseStep (acc : PieceTable × List Cursor × List EditOp) (idx : Nat) :
    PieceTable × List Cursor × List EditOp :=
  let pt := acc.1
  let cs := acc.2.1
  let ops := acc.2.2
  let c := cs.getD idx ⟨0, 0⟩
  if c.hasSelection then
    let s := c.start
    let l := c.endPos - s
    let d := pt.getRange s l
    let cs2 := (cs.map fun o =>
      (⟨if s < o.head then o.head - l else o.head,
        if s < o.anchor then o.anchor - l else o.anchor⟩ : Cursor)).set idx ⟨s, s⟩
    (pt.erase s l, cs2, ops ++ [⟨EditOpType.Erase, s, d⟩])
  else acc

/-- Insert pass of Editor::insertAtCursors for one cursor index: insert the
payload at the cursor head, record the op, and shift every cursor at or
after the insert position right by the payload length. -/
def insertPhaseStep (text : List Nat) (acc : PieceTable × List Cursor × List EditOp)
    (idx : Nat) : PieceTable × List Cursor × List EditOp :=
  let pt := acc.1
  let cs := acc.2.1
  let ops := acc.2.2
  let c := cs.getD idx ⟨0, 0⟩
  let p := c.head
  let l := text.length
  let cs2 := cs.map fun o =>
    (⟨if p ≤ o.head then o.head + l else o.head,
      if p ≤ o.anchor then o.anchor + l else o.anchor⟩ : Cursor)
  (pt.insert p text, cs2, ops ++ [⟨EditOpType.Insert, p, text⟩])

/-- Editor::insertAtCursors: commit padding, snapshot the cursors, process
cursor indices in descending start order through the erase pass and then
the insert pass, record one batch, push it, rebuild the line index. -/
def insertAtCursors (st0 : EditorSt) (text : List Nat) : EditorSt :=
  let st := commitPadding st0
  if st.cursors.isEmpty then st
  else
    let before := st.cursors
    let indices := sortedIndicesByStartDesc st.cursors
    let acc1 := indices.foldl erasePhaseStep (st.pt, st.cursors, [])
    let acc2 := indices.foldl (insertPhaseStep text) acc1
    let batch : EditBatch := ⟨acc2.2.2, before, acc2.2.1⟩
    let undo2 := st.undo.push batch
    { st with
      pt := acc2.1
      cursors := acc2.2.1
      undo := undo2
      lineStarts := rebuildLineStarts acc2.1
      isDirty := undo2.isModified }

/-- Editor::getLineIdx: distance to the upper bound of `pos` in the sorted
line-start index, minus one, clamped to valid indices (on the sorted index
the upper-bound distance is the count of entries `≤ pos`). -/
def getLineIdx (st : EditorSt) (pos : Nat) : Nat :=
  if st.lineStarts.isEmpty then 0
  else
    let dist : Int := (st.lineStarts.countP (fun x => decide (x ≤ pos)) : Int)
    let i1 : Int := dist - 1
    let i2 : Int := if i1 < 0 then 0 else i1
    let i3 : Int := if (st.lineStarts.length : Int) ≤ i2 then (st.lineStarts.length : Int) - 1 else i2
    i3.toNat

/-- Ascending insertion for std::sort on line indices. -/
def insertNatAsc (i : Nat) : List Nat → List Nat
  | [] => [i]
  | j :: rest => if i ≤ j then i :: j :: rest else j :: insertNatAsc i rest

/-- Ascending insertion sort on line indices. -/
def sortNatAsc : List Nat → List Nat
  | [] => []
  | i :: rest => insertNatAsc i (sortNatAsc rest)

/-- Adjacent deduplication, the effect of std::unique after sorting. -/
def dedupAdj : List Nat → List Nat
  | [] => []
  | [x] => [x]
  | x :: y :: rest => if x = y then dedupAdj (y :: rest) else x :: dedupAdj (y :: rest)

/-- Editor::getSelectedLineIndices: the unique sorted line indices covered
by the cursors; a selection ending just after a newline does not include
the following line. -/
def getSelectedLineIndices (st : EditorSt) : List Nat :=
  let raw := st.cursors.foldl (fun acc c =>
    let startLine := getLineIdx st c.start
    let endLine0 := getLineIdx st c.endPos
    let endLine :=
      if c.hasSelection = true ∧ c.start < c.endPos then
        if 0 < c.endPos ∧ st.pt.charAt (c.endPos - 1) = 10 then
          if startLine < endLine0 then endLine0 - 1 else endLine0
        else endLine0
      else endLine0
    acc ++ List.range' startLine (endLine + 1 - startLine)) []
  dedupAdj (sortNatAsc raw)

/-- Editor::moveLines: swap the selected block of whole lines with the
adjacent line above or below, with the end-of-file newline handling of the
Win32 implementation (the moved block absorbs or releases the final
newline rather than appending one first). Cursor `desiredX` refreshes are
display-only and omitted. -/
def moveLines (st0 : EditorSt) (up : Bool) : EditorSt :=
  let st := commitPadding st0
  if st.cursors.isEmpty then st
  else
    let lines := getSelectedLineIndices st
    if lines.isEmpty then st
    else if up ∧ lines.headD 0 = 0 then st
    else if up = false ∧ st.lineStarts.length - 1 ≤ lines.getLastD 0 then st
    else
      let startLine := lines.headD 0
      let endLine := lines.getLastD 0
      let rangeStart := st.lineStarts.getD startLine 0
      let rangeEnd := if endLine + 1 < st.lineStarts.length
        then st.lineStarts.getD (endLine + 1) 0 else st.pt.length
      let textToMove := st.pt.getRange rangeStart (rangeEnd - rangeStart)
      if up then
        let isLast := rangeEnd = st.pt.length ∧
          (textToMove.isEmpty = true ∨ textToMove.getLastD 0 ≠ 10)
        let targetLineIdx := startLine - 1
        let targetStart := st.lineStarts.getD targetLineIdx 0
        let lineAbove := st.pt.getRange targetStart (rangeStart - targetStart)
        let diff : Int := -(((rangeStart : Int)) - (targetStart : Int))
        let textToMove2 := if isLast then textToMove ++ [10] else textToMove
        let lineAbove2 := if isLast then
            (if lineAbove.isEmpty = false ∧ lineAbove.getLastD 0 = 10
              then lineAbove.dropLast else lineAbove)
          else lineAbove
        let deleteLen := rangeEnd - targetStart
        let deletedAll := st.pt.getRange targetStart deleteLen
        let pt2 := (st.pt.erase targetStart deleteLen).insert targetStart
          (textToMove2 ++ lineAbove2)
        let ops : List EditOp :=
          [⟨EditOpType.Erase, targetStart, deletedAll⟩,
           ⟨EditOpType.Insert, targetStart, textToMove2 ++ lineAbove2⟩]
        let cs := st.cursors.map fun c =>
          (⟨((c.head : Int) + diff).toNat, ((c.anchor : Int) + diff).toNat⟩ : Cursor)
        let undo2 := st.undo.push ⟨ops, st.cursors, cs⟩
        { st with
          pt := pt2
          cursors := cs
          undo := undo2
          lineStarts := rebuildLineStarts pt2
          isDirty := undo2.isModified }
      else
        let targetLineIdx := endLine + 1
        let targetStart := rangeEnd
        let targetEnd := if targetLineIdx + 1 < st.lineStarts.length
          then st.lineStarts.getD (targetLineIdx + 1) 0 else st.pt.length
        let lineBelow := st.pt.getRange targetStart (targetEnd - targetStart)
        let grow := targetEnd = st.pt.length ∧
          (lineBelow.isEmpty = true ∨ lineBelow.getLastD 0 ≠ 10)
        let lineBelow2 := if grow then lineBelow ++ [10] else lineBelow
        let textToMove2 := if grow then
            (if textToMove.isEmpty = false ∧ textToMove.getLastD 0 = 10
              then textToMove.dropLast else textToMove)
          else textToMove
        let deleteLen := targetEnd - rangeStart
        let deletedAll := st.pt.getRange rangeStart deleteLen
        let pt2 := (st.pt.erase rangeStart deleteLen).insert rangeStart
          (lineBelow2 ++ textToMove2)
        let ops : List EditOp :=
          [⟨EditOpType.Erase, rangeStart, deletedAll⟩,
           ⟨EditOpType.Insert, rangeStart, lineBelow2 ++ textToMove2⟩]
        let diff : Int := (lineBelow2.length : Int)
        let cs := st.cursors.map fun c =>
          (⟨((c.head : Int) + diff).toNat, ((c.anchor : Int) + diff).toNat⟩ : Cursor)
        let undo2 := st.undo.push ⟨ops, st.cursors, cs⟩
        { st with
          pt := pt2
          cursors := cs
          undo := undo2
          lineStarts := rebuildLineStarts pt2
          isDirty := undo2.isModified }

/-- Compiled regular expression, abstracted: first match from an iterator
offset (position relative to that offset plus length), all matches in
order, and all matches with their format-expanded replacements. The C++
std::regex engine is external library code (§4.D treats regex as part of
the oracle). -/
structure CompiledRegex where
  searchFrom : List Nat → Nat → Option (Nat × Nat)
  allMatches : List Nat → List (Nat × Nat)
  allMatchesFmt : List Nat → List Nat → List (Nat × Nat × List Nat)

/-- Regex engine: `compile` returns `none` exactly when the std::regex
constructor throws, which is what the `catch (...)` arms observe. -/
structure RegexEngine where
  compile : List Nat → Bool → Option CompiledRegex

/-- ASCII lower-casing used by the plain-text search. -/
def toLowerByte (c : Nat) : Nat := if 65 ≤ c ∧ c ≤ 90 then c + 32 else c

/-- Editor::isWordChar: ASCII alphanumerics, underscore, and any byte at or
above 0x80. -/
def isWordChar (c : Nat) : Bool :=
  decide ((97 ≤ c ∧ c ≤ 122) ∨ (65 ≤ c ∧ c ≤ 90) ∨ (48 ≤ c ∧ c ≤ 57) ∨ c = 95 ∨ 128 ≤ c)

/-- Byte-by-byte candidate match of the plain-text search (a comparison
failure or out-of-range read rejects, with optional ASCII case folding). -/
def matchBasic (pt : PieceTable) (query : List Nat) (matchCase : Bool)
    (cur len : Nat) : Bool :=
  (List.range query.length).all fun i =>
    decide (cur + i < len) &&
      (if matchCase then pt.charAt (cur + i) == query.getD i 0
       else toLowerByte (pt.charAt (cur + i)) == toLowerByte (query.getD i 0))

/-- Full candidate check of Editor::findText: the byte match, the
whole-word boundary test, and the emoji joiner / variation-selector /
skin-tone rejection just after the match. -/
def matchAt (pt : PieceTable) (query : List Nat) (matchCase wholeWord : Bool)
    (cur len : Nat) : Bool :=
  if matchBasic pt query matchCase cur len = false then false
  else if wholeWord = true ∧
      ((0 < cur ∧ isWordChar (pt.charAt (cur - 1)) = true) ∨
       (cur + query.length < len ∧ isWordChar (pt.charAt (cur + query.length)) = true)) then
    false
  else
    let nextPos := cur + query.length
    if nextPos < len then
      if pt.charAt nextPos = 226 ∧ nextPos + 2 < len then
        if pt.charAt (nextPos + 1) = 128 ∧ pt.charAt (nextPos + 2) = 141 then false else true
      else if pt.charAt nextPos = 239 ∧ nextPos + 2 < len then
        if pt.charAt (nextPos + 1) = 184 ∧ pt.charAt (nextPos + 2) = 143 then false else true
      else if pt.charAt nextPos = 240 ∧ nextPos + 3 < len then
        if pt.charAt (nextPos + 1) = 159 ∧ pt.charAt (nextPos + 2) = 143 ∧
            187 ≤ pt.charAt (nextPos + 3) ∧ pt.charAt (nextPos + 3) ≤ 191 then false else true
      else true
    else true

/-- Scan loop of Editor::findText: up to `len` candidate positions,
advancing with wrap-around in the chosen direction. -/
def findLoop (pt : PieceTable) (query : List Nat) (forward matchCase wholeWord : Bool)
    (len : Nat) : Nat → Nat → Option Nat
  | _, 0 => none
  | cur, fuel + 1 =>
      if matchAt pt query matchCase wholeWord cur len then some cur
      else
        let cur2 := if forward then (if len ≤ cur + 1 then 0 else cur + 1)
          else (if cur = 0 then len - 1 else cur - 1)
        findLoop pt query forward matchCase wholeWord len cur2 fuel

/-- Editor::findText: empty queries find nothing; regex mode delegates to
the engine (an invalid pattern is the `catch` arm and finds nothing); the
plain mode scans every position once with wrap-around. -/
def findText (eng : RegexEngine) (pt : PieceTable) (startPos : Nat)
    (query : List Nat) (forward matchCase wholeWord isRegex : Bool) : Option Nat :=
  if query.isEmpty then none
  else
    let len := pt.length
    if isRegex then
      let fullText := pt.getRange 0 len
      match eng.compile query (!matchCase) with
      | none => none
      | some re =>
          if forward then
            let sp := if fullText.length ≤ startPos then 0 else startPos
            match re.searchFrom fullText sp with
            | some m => some (sp + m.1)
            | none =>
                match re.searchFrom fullText 0 with
                | some m => some m.1
                | none => none
          else
            let ms := re.allMatches fullText
            let limit := if startPos = 0 then len else startPos
            match (ms.filter fun m => decide (m.1 < limit)).getLast? with
            | some m => some m.1
            | none =>
                match ms.getLast? with
                | some m => some m.1
                | none => none
    else
      let cur0 := if forward then (if len ≤ startPos then 0 else startPos)
        else (if startPos = 0 then len else startPos - 1)
      findLoop pt query forward matchCase wholeWord len cur0 len

/-- UnescapeString: expand the backslash escapes n, r, t and the doubled
backslash in the replacement text. -/
def unescapeString : List Nat → List Nat
  | [] => []
  | 92 :: c :: rest =>
      if c = 110 then 10 :: unescapeString rest
      else if c = 114 then 13 :: unescapeString rest
      else if c = 116 then 9 :: unescapeString rest
      else if c = 92 then 92 :: unescapeString rest
      else 92 :: c :: unescapeString rest
  | c :: rest => c :: unescapeString rest

/-- Plain-text match collection loop of Editor::replaceAll: repeated
findText from the end of the previous match, stopping on a miss, a
wrapped-around hit, or running past the document (the fuel bounds the
strictly advancing scan by the document length). -/
def plainLoop (eng : RegexEngine) (pt : PieceTable) (query repl : List Nat)
    (matchCase wholeWord : Bool) (docLen : Nat) :
    Nat → Nat → List (Nat × Nat × List Nat) → List (Nat × Nat × List Nat)
  | _, 0, acc => acc
  | currentPos, fuel + 1, acc =>
      match findText eng pt currentPos query true matchCase wholeWord false with
      | none => acc
      | some pos =>
          if pos < currentPos then acc
          else
            let acc2 := acc ++ [(pos, query.length, repl)]
            if docLen < pos + query.length then acc2
            else plainLoop eng pt query repl matchCase wholeWord docLen
              (pos + query.length) fuel acc2

/-- Replacement application of Editor::replaceAll: matches from last to
first, each as an Erase of the matched bytes followed by an Insert of the
replacement, collected into one batch; the cursor set collapses to a
single cursor at 0. -/
def replaceAllApply (st : EditorSt) (ms : List (Nat × Nat × List Nat)) : EditorSt :=
  if ms.isEmpty then st
  else
    let st1 := commitPadding st
    let before := st1.cursors
    let acc := ms.reverse.foldl (fun (acc : PieceTable × List EditOp) m =>
      let deleted := acc.1.getRange m.1 m.2.1
      ((acc.1.erase m.1 m.2.1).insert m.1 m.2.2,
        acc.2 ++ [⟨EditOpType.Erase, m.1, deleted⟩, ⟨EditOpType.Insert, m.1, m.2.2⟩]))
      (st1.pt, [])
    let cursors2 : List Cursor := [⟨0, 0⟩]
    let undo2 := st1.undo.push ⟨acc.2, before, cursors2⟩
    { st1 with
      pt := acc.1
      cursors := cursors2
      undo := undo2
      lineStarts := rebuildLineStarts acc.1
      isDirty := undo2.isModified }

/-- Editor::replaceAll: collect every match first (regex via the engine,
throwing patterns return with nothing touched; plain text via the findText
loop), then apply them last-to-first in one batch. -/
def replaceAll (eng : RegexEngine) (st : EditorSt) : EditorSt :=
  if st.searchQuery.isEmpty then st
  else
    let docLen := st.pt.length
    if st.searchRegex then
      match eng.compile st.searchQuery (!st.searchMatchCase) with
      | none => st
      | some re =>
          replaceAllApply st
            (re.allMatchesFmt (st.pt.getRange 0 docLen) (unescapeString st.replaceQuery))
    else
      replaceAllApply st
        (plainLoop eng st.pt st.searchQuery st.replaceQuery st.searchMatchCase
          st.searchWholeWord docLen 0 (docLen + 2) [])

/-- Sample document "a\nb\nc\n" used by the concrete evaluations. -/
def sampleDoc : PieceTable := PieceTable.initFromFile [97, 10, 98, 10, 99, 10]

/-- Fresh editor state over a document with a given cursor set, as after
opening a file (empty undo log, no pending padding, line index rebuilt). -/
def mkEditor (pt : PieceTable) (cs : List Cursor) : EditorSt :=
  ⟨pt, UndoManager.clear, cs, emptyBatch, rebuildLineStarts pt, false,
    [], [], false, false, false⟩

/-- Batch recording a single insert of "h" at 0, as typing records it. -/
def sampleBatch : EditBatch :=
  ⟨[⟨EditOpType.Insert, 0, [104]⟩], [⟨0, 0⟩], [⟨1, 1⟩]⟩

/-- Editor state holding `sampleBatch` on the undo stack with the post-edit
document. -/
def sampleUndoEditor : EditorSt :=
  ⟨PieceTable.initEmpty.insert 0 [104], ⟨[sampleBatch], [], 0⟩, [⟨1, 1⟩],
    emptyBatch, rebuildLineStarts (PieceTable.initEmpty.insert 0 [104]), true,
    [], [], false, false, false⟩

/-- Editor state holding `sampleBatch` on the redo stack with the pre-edit
document. -/
def sampleRedoEditor : EditorSt :=
  ⟨PieceTable.initEmpty, ⟨[], [sampleBatch], 0⟩, [⟨0, 0⟩], emptyBatch,
    rebuildLineStarts PieceTable.initEmpty, false, [], [], false, false, false⟩

/-- Scenario S2 start state: "a\nb\nc\n" with collapsed cursors 0, 2, 4. -/
def scenarioPasteEditor : EditorSt := mkEditor sampleDoc [⟨0, 0⟩, ⟨2, 2⟩, ⟨4, 4⟩]

/-- Scenario S5 start state: "A\nB" (no trailing newline), cursor on
line 0. -/
def scenarioMoveEditor : EditorSt :=
  mkEditor (PieceTable.initFromFile [65, 10, 66]) [⟨0, 0⟩]

/-- Engine on which every pattern fails to compile (the behaviour the C++
catch arms observe for a syntactically invalid pattern). -/
def failEngine : RegexEngine := ⟨fun _ _ => none⟩

/-- Editor state with regex mode on and the query "[", which std::regex
rejects. -/
def scenarioRegexEditor : EditorSt :=
  ⟨sampleDoc, UndoManager.clear, [⟨0, 0⟩], emptyBatch, rebuildLineStarts sampleDoc,
    false, [91], [120], false, false, true⟩

lemma boundedIn_cons {o a : List Nat} {p : Piece} {ps : List Piece} :
    BoundedIn o a (p :: ps) ↔
      p.start + p.len ≤ (if p.isOriginal then o else a).length ∧ BoundedIn o a ps := by
  simp [BoundedIn]

lemma posLens_cons {p : Piece} {ps : List Piece} :
    PosLens (p :: ps) ↔ 0 < p.len ∧ PosLens ps := by
  simp [PosLens]

lemma sumLens_cons (p : Piece) (ps : List Piece) :
    sumLens (p :: ps) = p.len + sumLens ps := by
  simp [sumLens]

lemma length_eq_sumLens (pt : PieceTable) : pt.length = sumLens pt.pieces := by
  have key : ∀ (ps : List Piece) (n : Nat),
      ps.foldl (fun s p => s + p.len) n = n + sumLens ps := by
    intro ps
    induction ps with
    | nil => intro n; simp [sumLens]
    | cons p rest ih =>
        intro n
        rw [List.foldl_cons, ih, sumLens_cons]
        omega
  simpa [PieceTable.length] using key pt.pieces 0

lemma length_pieceBytesIn {o a : List Nat} {p : Piece}
    (h : p.start + p.len ≤ (if p.isOriginal then o else a).length) :
    (pieceBytesIn o a p).length = p.len := by
  unfold pieceBytesIn
  rw [List.length_take, List.length_drop]
  omega

lemma length_piecesContent {o a : List Nat} {ps : List Piece}
    (h : BoundedIn o a ps) : (piecesContent o a ps).length = sumLens ps := by
  induction ps with
  | nil => simp [piecesContent, sumLens]
  | cons p rest ih =>
      rw [boundedIn_cons] at h
      rw [piecesContent, List.length_append, length_pieceBytesIn h.1, ih h.2,
        sumLens_cons]

lemma content_length {pt : PieceTable} (h : pt.Bounded) :
    pt.content.length = pt.length := by
  rw [length_eq_sumLens]
  exact length_piecesContent h

lemma pieceBytesIn_addBuf_append {o a : List Nat} (s : List Nat) {p : Piece}
    (h : p.start + p.len ≤ (if p.isOriginal then o else a).length) :
    pieceBytesIn o (a ++ s) p = pieceBytesIn o a p := by
  unfold pieceBytesIn
  cases hp : p.isOriginal with
  | true => simp [hp]
  | false =>
      simp only [hp, if_neg Bool.false_ne_true] at h ⊢
      rw [List.drop_append_eq_append_drop,
        List.take_append_of_le_length (by rw [List.length_drop]; omega)]

lemma boundedIn_addBuf_append {o a : List Nat} (s : List Nat) {ps : List Piece}
    (h : BoundedIn o a ps) : BoundedIn o (a ++ s) ps := by
  intro p hp
  have hb := h p hp
  cases hq : p.isOriginal with
  | true => simpa [hq] using hb
  | false =>
      simp only [hq, if_neg Bool.false_ne_true, List.length_append] at hb ⊢
      omega

lemma piecesContent_addBuf_append {o a : List Nat} (s : List Nat) {ps : List Piece}
    (h : BoundedIn o a ps) : piecesContent o (a ++ s) ps = piecesContent o a ps := by
  induction ps with
  | nil => rfl
  | cons p rest ih =>
      rw [boundedIn_cons] at h
      rw [piecesContent, piecesContent, pieceBytesIn_addBuf_append s h.1, ih h.2]

lemma canMerge_spec {x y : Piece} (h : canMerge x y = true) :
    x.isOriginal = false ∧ y.isOriginal = false ∧ x.start + x.len = y.start := by
  simpa [canMerge, Bool.and_eq_true, Bool.not_eq_true', and_assoc] using h

lemma piecesContent_mergeAt (o a : List Nat) (i : Nat) (ps : List Piece) :
    piecesContent o a (mergeAt i ps) = piecesContent o a ps := by
  induction i generalizing ps with
  | zero =>
      match ps with
      | [] => rfl
      | [x] => rfl
      | x :: y :: rest =>
          simp only [mergeAt]
          by_cases h : canMerge x y
          · obtain ⟨hx, hy, hxy⟩ := canMerge_spec h
            rw [if_pos h]
            show pieceBytesIn o a ⟨false, x.start, x.len + y.len⟩ ++ piecesContent o a rest
              = pieceBytesIn o a x ++ (pieceBytesIn o a y ++ piecesContent o a rest)
            rw [← List.append_assoc]
            congr 1
            unfold pieceBytesIn
            simp only [hx, hy, if_neg Bool.false_ne_true]
            rw [List.take_add, List.drop_drop, hxy]
          · rw [if_neg h]
  | succ i ih =>
      match ps with
      | [] => rfl
      | x :: rest => simp [mergeAt, piecesContent, ih]

lemma boundedIn_mergeAt {o a : List Nat} {ps : List Piece} (i : Nat)
    (h : BoundedIn o a ps) : BoundedIn o a (mergeAt i ps) := by
  induction i generalizing ps with
  | zero =>
      match ps with
      | [] => exact h
      | [x] => exact h
      | x :: y :: rest =>
          simp only [mergeAt]
          by_cases hm : canMerge x y
          · obtain ⟨hx, hy, hxy⟩ := canMerge_spec hm
            rw [if_pos hm]
            rw [boundedIn_cons] at h ⊢
            obtain ⟨h1, h2⟩ := h
            rw [boundedIn_cons] at h2
            refine ⟨?_, h2.2⟩
            have := h2.1
            simp only [hy, if_neg Bool.false_ne_true] at this
            simp only [if_neg Bool.false_ne_true]
            omega
          · rw [if_neg hm]; exact h
  | succ i ih =>
      match ps with
      | [] => exact h
      | x :: rest =>
          rw [boundedIn_cons] at h
          simp only [mergeAt]
          rw [boundedIn_cons]
          exact ⟨h.1, ih h.2⟩

lemma posLens_mergeAt {ps : List Piece} (i : Nat)
    (h : PosLens ps) : PosLens (mergeAt i ps) := by
  induction i generalizing ps with
  | zero =>
      match ps with
      | [] => exact h
      | [x] => exact h
      | x :: y :: rest =>
          simp only [mergeAt]
          by_cases hm : canMerge x y
          · rw [if_pos hm]
            rw [posLens_cons] at h ⊢
            obtain ⟨h1, h2⟩ := h
            rw [posLens_cons] at h2
            exact ⟨by simp; omega, h2.2⟩
          · rw [if_neg hm]; exact h
  | succ i ih =>
      match ps with
      | [] => exact h
      | x :: rest =>
          rw [posLens_cons] at h
          simp only [mergeAt]
          rw [posLens_cons]
          exact ⟨h.1, ih h.2⟩

lemma piecesContent_coalesceAround (o a : List Nat) (i : Nat) (ps : List Piece) :
    piecesContent o a (coalesceAround i ps) = piecesContent o a ps := by
  unfold coalesceAround
  split
  · rfl
  · split
    · rw [piecesContent_mergeAt, piecesContent_mergeAt]
    · rw [piecesContent_mergeAt]

lemma boundedIn_coalesceAround {o a : List Nat} {ps : List Piece} (i : Nat)
    (h : BoundedIn o a ps) : BoundedIn o a (coalesceAround i ps) := by
  unfold coalesceAround
  split
  · exact h
  · split
    · exact boundedIn_mergeAt _ (boundedIn_mergeAt _ h)
    · exact boundedIn_mergeAt _ h

lemma posLens_coalesceAround {ps : List Piece} (i : Nat)
    (h : PosLens ps) : PosLens (coalesceAround i ps) := by
  unfold coalesceAround
  split
  · exact h
  · split
    · exact posLens_mergeAt _ (posLens_mergeAt _ h)
    · exact posLens_mergeAt _ h

lemma piecesContent_insertPiecesAux (o a : List Nat) (q : Piece) (ps : List Piece)
    (pos : Nat) (h : BoundedIn o a ps) :
    piecesContent o a (insertPiecesAux q ps pos).1 =
      (piecesContent o a ps).take pos ++ pieceBytesIn o a q ++
        (piecesContent o a ps).drop pos := by
  induction ps generalizing pos with
  | nil => simp [insertPiecesAux, piecesContent]
  | cons p rest ih =>
      rw [boundedIn_cons] at h
      have hlen : (pieceBytesIn o a p).length = p.len := length_pieceBytesIn h.1
      by_cases h1 : p.len < pos
      · have : (insertPiecesAux q (p :: rest) pos).1
            = p :: (insertPiecesAux q rest (pos - p.len)).1 := by
          simp [insertPiecesAux, h1]
        rw [this, piecesContent, ih _ h.2, piecesContent,
          List.take_append_eq_append_take, List.drop_append_eq_append_drop]
        have e1 : List.take pos (pieceBytesIn o a p) = pieceBytesIn o a p :=
          List.take_of_length_le (by omega)
        have e2 : List.drop pos (pieceBytesIn o a p) = [] :=
          List.drop_of_length_le (by omega)
        rw [e1, e2, hlen]
        simp [List.append_assoc]
      · by_cases h2 : 0 < pos ∧ pos < p.len
        · have : (insertPiecesAux q (p :: rest) pos).1
              = ⟨p.isOriginal, p.start, pos⟩ :: q ::
                  ⟨p.isOriginal, p.start + pos, p.len - pos⟩ :: rest := by
            simp [insertPiecesAux, h1, h2]
          rw [this]
          show pieceBytesIn o a ⟨p.isOriginal, p.start, pos⟩ ++
              (pieceBytesIn o a q ++ (pieceBytesIn o a ⟨p.isOriginal, p.start + pos, p.len - pos⟩ ++
                piecesContent o a rest)) = _
          rw [piecesContent, List.take_append_eq_append_take,
            List.drop_append_eq_append_drop, hlen]
          have hc1 : pieceBytesIn o a ⟨p.isOriginal, p.start, pos⟩
              = (pieceBytesIn o a p).take pos := by
            unfold pieceBytesIn
            rw [List.take_take]
            simp [Nat.min_def, Nat.le_of_lt h2.2]
          have hc2 : pieceBytesIn o a ⟨p.isOriginal, p.start + pos, p.len - pos⟩
              = (pieceBytesIn o a p).drop pos := by
            unfold pieceBytesIn
            rw [List.drop_take, List.drop_drop]
          rw [hc1, hc2]
          have hz1 : pos - p.len = 0 := by omega
          rw [hz1]
          simp [List.append_assoc]
        · by_cases h3 : pos = p.len
          · have : (insertPiecesAux q (p :: rest) pos).1 = p :: q :: rest := by
              simp [insertPiecesAux, h1, h2, h3]
            rw [this]
            show pieceBytesIn o a p ++ (pieceBytesIn o a q ++ piecesContent o a rest) = _
            rw [piecesContent, List.take_append_eq_append_take,
              List.drop_append_eq_append_drop]
            have e1 : List.take pos (pieceBytesIn o a p) = pieceBytesIn o a p :=
              List.take_of_length_le (by omega)
            have e2 : List.drop pos (pieceBytesIn o a p) = [] :=
              List.drop_of_length_le (by omega)
            rw [e1, e2, hlen, h3]
            simp [List.append_assoc]
          · have hz : pos = 0 := by omega
            have : (insertPiecesAux q (p :: rest) pos).1 = q :: p :: rest := by
              simp [insertPiecesAux, h1, h2, h3]
            rw [this, hz]
            show pieceBytesIn o a q ++ (pieceBytesIn o a p ++ piecesContent o a rest) = _
            simp [piecesContent]

lemma boundedIn_insertPiecesAux {o a : List Nat} {q : Piece} {ps : List Piece}
    {pos : Nat} (hq : q.start + q.len ≤ (if q.isOriginal then o else a).length)
    (h : BoundedIn o a ps) : BoundedIn o a (insertPiecesAux q ps pos).1 := by
  induction ps generalizing pos with
  | nil =>
      simp only [insertPiecesAux]
      rw [boundedIn_cons]
      exact ⟨hq, by intro p hp; cases hp⟩
  | cons p rest ih =>
      rw [boundedIn_cons] at h
      by_cases h1 : p.len < pos
      · have : (insertPiecesAux q (p :: rest) pos).1
            = p :: (insertPiecesAux q rest (pos - p.len)).1 := by
          simp [insertPiecesAux, h1]
        rw [this, boundedIn_cons]
        exact ⟨h.1, ih h.2⟩
      · by_cases h2 : 0 < pos ∧ pos < p.len
        · have : (insertPiecesAux q (p :: rest) pos).1
              = ⟨p.isOriginal, p.start, pos⟩ :: q ::
                  ⟨p.isOriginal, p.start + pos, p.len - pos⟩ :: rest := by
            simp [insertPiecesAux, h1, h2]
          rw [this, boundedIn_cons, boundedIn_cons, boundedIn_cons]
          refine ⟨?_, hq, ?_, h.2⟩
          · have := h.1; simp only at this ⊢; omega
          · have := h.1; simp only at this ⊢; omega
        · by_cases h3 : pos = p.len
          · have : (insertPiecesAux q (p :: rest) pos).1 = p :: q :: rest := by
              simp [insertPiecesAux, h1, h2, h3]
            rw [this, boundedIn_cons, boundedIn_cons]
            exact ⟨h.1, hq, h.2⟩
          · have : (insertPiecesAux q (p :: rest) pos).1 = q :: p :: rest := by
              simp [insertPiecesAux, h1, h2, h3]
            rw [this, boundedIn_cons, boundedIn_cons]
            exact ⟨hq, h.1, h.2⟩

lemma posLens_insertPiecesAux {q : Piece} {ps : List Piece} {pos : Nat}
    (hq : 0 < q.len) (h : PosLens ps) : PosLens (insertPiecesAux q ps pos).1 := by
  induction ps generalizing pos with
  | nil =>
      simp only [insertPiecesAux]
      rw [posLens_cons]
      exact ⟨hq, by intro p hp; cases hp⟩
  | cons p rest ih =>
      rw [posLens_cons] at h
      by_cases h1 : p.len < pos
      · have : (insertPiecesAux q (p :: rest) pos).1
            = p :: (insertPiecesAux q rest (pos - p.len)).1 := by
          simp [insertPiecesAux, h1]
        rw [this, posLens_cons]
        exact ⟨h.1, ih h.2⟩
      · by_cases h2 : 0 < pos ∧ pos < p.len
        · have : (insertPiecesAux q (p :: rest) pos).1
              = ⟨p.isOriginal, p.start, pos⟩ :: q ::
                  ⟨p.isOriginal, p.start + pos, p.len - pos⟩ :: rest := by
            simp [insertPiecesAux, h1, h2]
          rw [this, posLens_cons, posLens_cons, posLens_cons]
          exact ⟨h2.1, hq, by simp; omega, h.2⟩
        · by_cases h3 : pos = p.len
          · have : (insertPiecesAux q (p :: rest) pos).1 = p :: q :: rest := by
              simp [insertPiecesAux, h1, h2, h3]
            rw [this, posLens_cons, posLens_cons]
            exact ⟨h.1, hq, h.2⟩
          · have : (insertPiecesAux q (p :: rest) pos).1 = q :: p :: rest := by
              simp [insertPiecesAux, h1, h2, h3]
            rw [this, posLens_cons, posLens_cons]
            exact ⟨hq, h.1, h.2⟩

/-- Content of an insert: the payload is spliced at `pos` (positions past the
end append, matching the clamping behaviour of the walk). -/
theorem content_insert (pt : PieceTable) (pos : Nat) (s : List Nat)
    (h : pt.Bounded) :
    (pt.insert pos s).content =
      pt.content.take pos ++ s ++ pt.content.drop pos := by
  unfold PieceTable.insert
  by_cases hs : s.isEmpty
  · rw [List.isEmpty_iff] at hs
    subst hs
    simp [List.take_append_drop]
  · rw [if_neg hs]
    show piecesContent pt.orig (pt.addBuf ++ s) (coalesceAround _ _) = _
    rw [piecesContent_coalesceAround,
      piecesContent_insertPiecesAux _ _ _ _ _ (boundedIn_addBuf_append s h),
      piecesContent_addBuf_append s h]
    congr 1
    congr 1
    unfold pieceBytesIn
    simp [List.drop_left]

/-- Insert preserves boundedness. -/
theorem bounded_insert (pt : PieceTable) (pos : Nat) (s : List Nat)
    (h : pt.Bounded) : (pt.insert pos s).Bounded := by
  unfold PieceTable.insert
  by_cases hs : s.isEmpty
  · simpa [hs] using h
  · rw [if_neg hs]
    show BoundedIn pt.orig (pt.addBuf ++ s) (coalesceAround _ _)
    refine boundedIn_coalesceAround _ (boundedIn_insertPiecesAux ?_
      (boundedIn_addBuf_append s h))
    simp

/-- Insert preserves piece-length positivity (the payload piece is non-empty
because empty payloads return early). -/
theorem posLens_insert (pt : PieceTable) (pos : Nat) (s : List Nat)
    (h : PosLens pt.pieces) : PosLens (pt.insert pos s).pieces := by
  unfold PieceTable.insert
  by_cases hs : s.isEmpty
  · simpa [hs] using h
  · rw [if_neg hs]
    show PosLens (coalesceAround _ _)
    refine posLens_coalesceAround _ (posLens_insertPiecesAux ?_ h)
    have hne : s ≠ [] := fun hnil => hs (List.isEmpty_iff.mpr hnil)
    show 0 < s.length
    exact List.length_pos.mpr hne

lemma piecesContent_eraseRun {o a : List Nat} {ps : List Piece} (n : Nat)
    (h : BoundedIn o a ps) :
    piecesContent o a (eraseRun ps n) = (piecesContent o a ps).drop n := by
  induction ps generalizing n with
  | nil => simp [eraseRun, piecesContent]
  | cons p rest ih =>
      rw [boundedIn_cons] at h
      have hlen : (pieceBytesIn o a p).length = p.len := length_pieceBytesIn h.1
      by_cases h0 : n = 0
      · simp [eraseRun, h0]
      · by_cases h1 : p.len ≤ n
        · have : eraseRun (p :: rest) n = eraseRun rest (n - p.len) := by
            simp [eraseRun, h0, h1]
          rw [this, ih _ h.2, piecesContent, List.drop_append_eq_append_drop]
          have e1 : List.drop n (pieceBytesIn o a p) = [] :=
            List.drop_of_length_le (by omega)
          rw [e1, hlen]
          simp
        · have : eraseRun (p :: rest) n
              = ⟨p.isOriginal, p.start + n, p.len - n⟩ :: rest := by
            simp [eraseRun, h0, h1]
          rw [this, piecesContent, piecesContent, List.drop_append_eq_append_drop]
          have e1 : n - (pieceBytesIn o a p).length = 0 := by omega
          rw [e1]
          simp only [List.drop_zero]
          congr 1
          unfold pieceBytesIn
          rw [List.drop_take, List.drop_drop]

lemma boundedIn_eraseRun {o a : List Nat} {ps : List Piece} (n : Nat)
    (h : BoundedIn o a ps) : BoundedIn o a (eraseRun ps n) := by
  induction ps generalizing n with
  | nil => simpa [eraseRun] using h
  | cons p rest ih =>
      rw [boundedIn_cons] at h
      by_cases h0 : n = 0
      · rw [show eraseRun (p :: rest) n = p :: rest by simp [eraseRun, h0],
          boundedIn_cons]
        exact h
      · by_cases h1 : p.len ≤ n
        · rw [show eraseRun (p :: rest) n = eraseRun rest (n - p.len) by
            simp [eraseRun, h0, h1]]
          exact ih _ h.2
        · rw [show eraseRun (p :: rest) n
              = ⟨p.isOriginal, p.start + n, p.len - n⟩ :: rest by
            simp [eraseRun, h0, h1], boundedIn_cons]
          refine ⟨?_, h.2⟩
          have := h.1
          simp only at this ⊢
          omega

lemma posLens_eraseRun {ps : List Piece} (n : Nat)
    (h : PosLens ps) : PosLens (eraseRun ps n) := by
  induction ps generalizing n with
  | nil => simpa [eraseRun] using h
  | cons p rest ih =>
      rw [posLens_cons] at h
      by_cases h0 : n = 0
      · rw [show eraseRun (p :: rest) n = p :: rest by simp [eraseRun, h0],
          posLens_cons]
        exact h
      · by_cases h1 : p.len ≤ n
        · rw [show eraseRun (p :: rest) n = eraseRun rest (n - p.len) by
            simp [eraseRun, h0, h1]]
          exact ih _ h.2
        · rw [show eraseRun (p :: rest) n
              = ⟨p.isOriginal, p.start + n, p.len - n⟩ :: rest by
            simp [eraseRun, h0, h1], posLens_cons]
          exact ⟨by simp; omega, h.2⟩

lemma eraseGo_eq_none {ps : List Piece} {pos : Nat} (n : Nat)
    (h : sumLens ps ≤ pos) : eraseGo ps pos n = none := by
  induction ps generalizing pos with
  | nil => rfl
  | cons p rest ih =>
      rw [sumLens_cons] at h
      have h1 : p.len ≤ pos := by omega
      have h2 : sumLens rest ≤ pos - p.len := by omega
      simp only [eraseGo, if_pos h1, ih h2]

lemma eraseGo_none_le {ps : List Piece} {pos n : Nat}
    (h : eraseGo ps pos n = none) : sumLens ps ≤ pos := by
  induction ps generalizing pos with
  | nil => simp [sumLens]
  | cons p rest ih =>
      rw [sumLens_cons]
      by_cases h1 : p.len ≤ pos
      · simp only [eraseGo, if_pos h1] at h
        cases heq : eraseGo rest (pos - p.len) n with
        | none => have := ih heq; omega
        | some r => rw [heq] at h; simp at h
      · exfalso
        simp only [eraseGo, if_neg h1] at h
        by_cases h2 : 0 < pos <;> simp [h2] at h

lemma piecesContent_eraseGo {o a : List Nat} {ps : List Piece} {pos n : Nat}
    {r : List Piece × Nat} (h : BoundedIn o a ps)
    (heq : eraseGo ps pos n = some r) :
    piecesContent o a r.1 =
      (piecesContent o a ps).take pos ++ (piecesContent o a ps).drop (pos + n) := by
  induction ps generalizing pos r with
  | nil => simp [eraseGo] at heq
  | cons p rest ih =>
      rw [boundedIn_cons] at h
      have hlen : (pieceBytesIn o a p).length = p.len := length_pieceBytesIn h.1
      by_cases h1 : p.len ≤ pos
      · simp only [eraseGo, if_pos h1] at heq
        cases hrec : eraseGo rest (pos - p.len) n with
        | none => rw [hrec] at heq; simp at heq
        | some r0 =>
            rw [hrec] at heq
            simp only [Option.some.injEq] at heq
            subst heq
            show pieceBytesIn o a p ++ piecesContent o a r0.1 = _
            rw [ih h.2 hrec, piecesContent, List.take_append_eq_append_take,
              List.drop_append_eq_append_drop]
            have e1 : List.take pos (pieceBytesIn o a p) = pieceBytesIn o a p :=
              List.take_of_length_le (by omega)
            have e2 : List.drop (pos + n) (pieceBytesIn o a p) = [] :=
              List.drop_of_length_le (by omega)
            rw [e1, e2, hlen]
            have e3 : pos + n - p.len = pos - p.len + n := by omega
            rw [e3]
            simp [List.append_assoc]
      · by_cases h2 : 0 < pos
        · simp only [eraseGo, if_neg h1, if_pos h2, Option.some.injEq] at heq
          subst heq
          show pieceBytesIn o a ⟨p.isOriginal, p.start, pos⟩ ++
              piecesContent o a (eraseRun (⟨p.isOriginal, p.start + pos, p.len - pos⟩ :: rest) n) = _
          have hbnd : BoundedIn o a (⟨p.isOriginal, p.start + pos, p.len - pos⟩ :: rest) := by
            rw [boundedIn_cons]
            refine ⟨?_, h.2⟩
            have := h.1
            simp only at this ⊢
            omega
          have hc1 : pieceBytesIn o a ⟨p.isOriginal, p.start, pos⟩
              = (pieceBytesIn o a p).take pos := by
            unfold pieceBytesIn
            rw [List.take_take]
            simp [Nat.min_def, Nat.le_of_lt (Nat.lt_of_not_le h1)]
          have hc2 : pieceBytesIn o a ⟨p.isOriginal, p.start + pos, p.len - pos⟩
              = (pieceBytesIn o a p).drop pos := by
            unfold pieceBytesIn
            rw [List.drop_take, List.drop_drop]
          have L1 : piecesContent o a (eraseRun (⟨p.isOriginal, p.start + pos, p.len - pos⟩ :: rest) n)
              = List.drop n ((pieceBytesIn o a p).drop pos ++ piecesContent o a rest) := by
            rw [piecesContent_eraseRun n hbnd, piecesContent, hc2]
          have L2 : List.drop n ((pieceBytesIn o a p).drop pos ++ piecesContent o a rest)
              = (pieceBytesIn o a p).drop (pos + n) ++
                  (piecesContent o a rest).drop (pos + n - p.len) := by
            rw [List.drop_append_eq_append_drop, List.drop_drop, List.length_drop, hlen]
            congr 2
            omega
          have R1 : (piecesContent o a (p :: rest)).take pos
              = (pieceBytesIn o a p).take pos := by
            rw [piecesContent, List.take_append_of_le_length (by omega)]
          have R2 : (piecesContent o a (p :: rest)).drop (pos + n)
              = (pieceBytesIn o a p).drop (pos + n) ++
                  (piecesContent o a rest).drop (pos + n - p.len) := by
            rw [piecesContent, List.drop_append_eq_append_drop, hlen]
          rw [hc1, L1, L2, R1, R2]
        · have hz : pos = 0 := by omega
          simp only [eraseGo, if_neg h1, if_neg h2, Option.some.injEq] at heq
          subst heq
          show piecesContent o a (eraseRun (p :: rest) n) = _
          have hbnd : BoundedIn o a (p :: rest) := by
            rw [boundedIn_cons]; exact h
          rw [piecesContent_eraseRun n hbnd, hz]
          simp

lemma boundedIn_eraseGo {o a : List Nat} {ps : List Piece} {pos n : Nat}
    {r : List Piece × Nat} (h : BoundedIn o a ps)
    (heq : eraseGo ps pos n = some r) : BoundedIn o a r.1 := by
  induction ps generalizing pos r with
  | nil => simp [eraseGo] at heq
  | cons p rest ih =>
      rw [boundedIn_cons] at h
      by_cases h1 : p.len ≤ pos
      · simp only [eraseGo, if_pos h1] at heq
        cases hrec : eraseGo rest (pos - p.len) n with
        | none => rw [hrec] at heq; simp at heq
        | some r0 =>
            rw [hrec] at heq
            simp only [Option.some.injEq] at heq
            subst heq
            show BoundedIn o a (p :: r0.1)
            rw [boundedIn_cons]
            exact ⟨h.1, ih h.2 hrec⟩
      · by_cases h2 : 0 < pos
        · simp only [eraseGo, if_neg h1, if_pos h2, Option.some.injEq] at heq
          subst heq
          show BoundedIn o a (_ :: eraseRun _ n)
          rw [boundedIn_cons]
          constructor
          · have := h.1; simp only at this ⊢; omega
          · refine boundedIn_eraseRun n ?_
            rw [boundedIn_cons]
            refine ⟨?_, h.2⟩
            have := h.1; simp only at this ⊢; omega
        · simp only [eraseGo, if_neg h1, if_neg h2, Option.some.injEq] at heq
          subst heq
          refine boundedIn_eraseRun n ?_
          rw [boundedIn_cons]
          exact h

lemma posLens_eraseGo {ps : List Piece} {pos n : Nat}
    {r : List Piece × Nat} (h : PosLens ps)
    (heq : eraseGo ps pos n = some r) : PosLens r.1 := by
  induction ps generalizing pos r with
  | nil => simp [eraseGo] at heq
  | cons p rest ih =>
      rw [posLens_cons] at h
      by_cases h1 : p.len ≤ pos
      · simp only [eraseGo, if_pos h1] at heq
        cases hrec : eraseGo rest (pos - p.len) n with
        | none => rw [hrec] at heq; simp at heq
        | some r0 =>
            rw [hrec] at heq
            simp only [Option.some.injEq] at heq
            subst heq
            show PosLens (p :: r0.1)
            rw [posLens_cons]
            exact ⟨h.1, ih h.2 hrec⟩
      · by_cases h2 : 0 < pos
        · simp only [eraseGo, if_neg h1, if_pos h2, Option.some.injEq] at heq
          subst heq
          show PosLens (_ :: eraseRun _ n)
          rw [posLens_cons]
          refine ⟨h2, posLens_eraseRun n ?_⟩
          rw [posLens_cons]
          exact ⟨by simp; omega, h.2⟩
        · simp only [eraseGo, if_neg h1, if_neg h2, Option.some.injEq] at heq
          subst heq
          refine posLens_eraseRun n ?_
          rw [posLens_cons]
          exact h

/-- Content of an erase: the bytes `[pos, pos + count)` are removed
(clamped at both ends). -/
theorem content_erase (pt : PieceTable) (pos count : Nat) (h : pt.Bounded) :
    (pt.erase pos count).content =
      pt.content.take pos ++ pt.content.drop (pos + count) := by
  unfold PieceTable.erase
  by_cases h0 : count = 0
  · simp [h0, List.take_append_drop]
  · rw [if_neg h0]
    cases heq : eraseGo pt.pieces pos count with
    | none =>
        have hle : pt.content.length ≤ pos := by
          rw [PieceTable.content, length_piecesContent h]
          exact eraseGo_none_le heq
        rw [List.take_of_length_le hle, List.drop_of_length_le (by omega)]
        simp
    | some r =>
        show piecesContent pt.orig pt.addBuf (coalesceAround _ _) = _
        rw [piecesContent_coalesceAround]
        exact piecesContent_eraseGo h heq

/-- Erase preserves boundedness. -/
theorem bounded_erase (pt : PieceTable) (pos count : Nat)
    (h : pt.Bounded) : (pt.erase pos count).Bounded := by
  unfold PieceTable.erase
  by_cases h0 : count = 0
  · simpa [h0] using h
  · rw [if_neg h0]
    cases heq : eraseGo pt.pieces pos count with
    | none => exact h
    | some r =>
        show BoundedIn pt.orig pt.addBuf (coalesceAround _ _)
        exact boundedIn_coalesceAround _ (boundedIn_eraseGo h heq)

/-- Erase preserves piece-length positivity. -/
theorem posLens_erase (pt : PieceTable) (pos count : Nat)
    (h : PosLens pt.pieces) : PosLens (pt.erase pos count).pieces := by
  unfold PieceTable.erase
  by_cases h0 : count = 0
  · simpa [h0] using h
  · rw [if_neg h0]
    cases heq : eraseGo pt.pieces pos count with
    | none => exact h
    | some r =>
        show PosLens (coalesceAround _ _)
        exact posLens_coalesceAround _ (posLens_eraseGo h heq)

/-- Erase whose start is at (or past) the document end leaves the table
untouched: the walk runs off the piece list and the source returns early. -/
theorem erase_at_end (pt : PieceTable) (pos count : Nat)
    (h : pt.length ≤ pos) : pt.erase pos count = pt := by
  unfold PieceTable.erase
  by_cases h0 : count = 0
  · simp [h0]
  · rw [if_neg h0, eraseGo_eq_none count (by rw [← length_eq_sumLens]; exact h)]

lemma charAtGo_out (o a : List Nat) (ps : List Piece) (pos : Nat)
    (h : sumLens ps ≤ pos) : charAtGo o a ps pos = 32 := by
  induction ps generalizing pos with
  | nil => rfl
  | cons p rest ih =>
      rw [sumLens_cons] at h
      simp only [charAtGo, if_pos (show p.len ≤ pos by omega)]
      exact ih _ (by omega)

/-- Claim C10: PieceTable.charAt is a total function (it is defined for
every position by construction), and every position at or past length()
falls through the piece walk and returns the space byte 0x20. -/
theorem charAt_past_end_is_space (pt : PieceTable) (pos : Nat)
    (h : pt.length ≤ pos) : pt.charAt pos = 32 := by
  rw [PieceTable.charAt]
  exact charAtGo_out _ _ _ _ (by rw [← length_eq_sumLens]; exact h)

/-- Witness for C10 at "hi", position 7. -/
theorem charAt_past_end_is_space_witness :
    (PieceTable.initFromFile [104, 105]).length ≤ 7 ∧
      (PieceTable.initFromFile [104, 105]).charAt 7 = 32 :=
  ⟨by decide, charAt_past_end_is_space (PieceTable.initFromFile [104, 105]) 7 (by decide)⟩

/-- Claim C6: the edit primitives are total (they are functions defined on
all inputs by construction) and clamp out-of-range inputs: erasing at
length() is the identity for every count and so agrees with the
zero-count erase, inserting at length() appends, empty inserts and
zero-count erases are no-ops, and any position at or past length() is
clamped (insert appends, erase changes nothing). -/
theorem edit_primitives_total (pt : PieceTable) (k p2 pos : Nat) (s : List Nat)
    (h : pt.Bounded) :
    pt.erase pt.length k = pt.erase pt.length 0 ∧
    pt.erase pt.length k = pt ∧
    (pt.insert pt.length s).content = pt.content ++ s ∧
    pt.insert p2 [] = pt ∧
    pt.erase p2 0 = pt ∧
    (pt.length ≤ pos →
      (pt.insert pos s).content = pt.content ++ s ∧ pt.erase pos k = pt) := by
  have hend : ∀ n, pt.erase pt.length n = pt := fun n => erase_at_end pt _ n le_rfl
  refine ⟨by rw [hend k, hend 0], hend k, ?_, ?_, ?_, ?_⟩
  · rw [content_insert _ _ _ h,
      List.take_of_length_le (le_of_eq (content_length h)),
      List.drop_of_length_le (le_of_eq (content_length h))]
    simp
  · simp [PieceTable.insert]
  · simp [PieceTable.erase]
  · intro hp
    refine ⟨?_, erase_at_end pt _ k hp⟩
    rw [content_insert _ _ _ h,
      List.take_of_length_le (by rw [content_length h]; exact hp),
      List.drop_of_length_le (by rw [content_length h]; omega)]
    simp

/-- Witness for C6 on "a\nb" with out-of-range arguments. -/
theorem edit_primitives_total_witness :
    (PieceTable.initFromFile [97, 10, 98]).erase 3 5
      = PieceTable.initFromFile [97, 10, 98] :=
  (edit_primitives_total (PieceTable.initFromFile [97, 10, 98]) 5 1 4 [120]
    (by decide)).2.1

/-- Claim C1: for p ≤ length(), insert(p, s) followed by erase(p, s.size())
restores the document bytes, and hence the rebuilt line index. -/
theorem insert_erase_roundtrip (pt : PieceTable) (pos : Nat) (s : List Nat)
    (hB : pt.Bounded) (hpos : pos ≤ pt.length) :
    ((pt.insert pos s).erase pos s.length).content = pt.content ∧
    rebuildLineStarts ((pt.insert pos s).erase pos s.length) = rebuildLineStarts pt := by
  have hB1 := bounded_insert pt pos s hB
  have hc : ((pt.insert pos s).erase pos s.length).content = pt.content := by
    rw [content_erase _ _ _ hB1, content_insert _ _ _ hB]
    have hA : (pt.content.take pos).length = pos := by
      rw [List.length_take, content_length hB]
      omega
    have e1 : (pt.content.take pos ++ (s ++ pt.content.drop pos)).take pos
        = pt.content.take pos := List.take_left' hA
    have e2 : (pt.content.take pos ++ (s ++ pt.content.drop pos)).drop (pos + s.length)
        = pt.content.drop pos := by
      rw [← List.append_assoc]
      refine List.drop_left' ?_
      rw [List.length_append, hA]
    rw [List.append_assoc, e1, e2, List.take_append_drop]
  exact ⟨hc, by rw [rebuildLineStarts, rebuildLineStarts, hc]⟩

/-- Witness for C1 on "a\nb", inserting "xy" at 1 and erasing it again. -/
theorem insert_erase_roundtrip_witness :
    (((PieceTable.initFromFile [97, 10, 98]).insert 1 [120, 121]).erase 1 2).content
      = (PieceTable.initFromFile [97, 10, 98]).content :=
  (insert_erase_roundtrip (PieceTable.initFromFile [97, 10, 98]) 1 [120, 121]
    (by decide) (by decide)).1

lemma reachable_invariant (pt : PieceTable) (h : Reachable pt) :
    PosLens pt.pieces ∧ pt.Bounded := by
  induction h with
  | initEmpty =>
      constructor <;> intro p hp <;> simp [PieceTable.initEmpty] at hp
  | initFromFile data =>
      by_cases hd : 0 < data.length
      · constructor
        · intro p hp
          simp only [PieceTable.initFromFile, if_pos hd, List.mem_singleton] at hp
          subst hp
          exact hd
        · intro p hp
          simp only [PieceTable.initFromFile, if_pos hd, List.mem_singleton] at hp
          subst hp
          simp [PieceTable.initFromFile]
      · constructor <;> intro p hp <;>
          simp [PieceTable.initFromFile, if_neg hd] at hp
  | insert pos s _ ih =>
      exact ⟨posLens_insert _ pos s ih.1, bounded_insert _ pos s ih.2⟩
  | erase pos count _ ih =>
      exact ⟨posLens_erase _ pos count ih.1, bounded_erase _ pos count ih.2⟩

/-- Claim C4: in every state reachable through initEmpty, initFromFile,
insert and erase, every piece has positive length and length() equals the
sum of the piece lengths. -/
theorem pieceTable_invariants (pt : PieceTable) (h : Reachable pt) :
    (∀ p ∈ pt.pieces, 0 < p.len) ∧ pt.length = (pt.pieces.map Piece.len).sum :=
  ⟨(reachable_invariant pt h).1, length_eq_sumLens pt⟩

/-- Witness for C4 at a state built by an insert followed by an erase. -/
theorem pieceTable_invariants_witness :
    (∀ p ∈ ((PieceTable.initEmpty.insert 0 [104, 105]).erase 0 1).pieces, 0 < p.len) ∧
      ((PieceTable.initEmpty.insert 0 [104, 105]).erase 0 1).length
        = (((PieceTable.initEmpty.insert 0 [104, 105]).erase 0 1).pieces.map Piece.len).sum :=
  pieceTable_invariants _
    (Reachable.erase 0 1 (Reachable.insert 0 [104, 105] Reachable.initEmpty))

lemma lineStartsFromBytes_mem (c : List Nat) (g : Nat) :
    ∀ x ∈ lineStartsFromBytes c g, g < x ∧ x ≤ g + c.length := by
  induction c generalizing g with
  | nil => simp [lineStartsFromBytes]
  | cons b rest ih =>
      intro x hx
      simp only [lineStartsFromBytes] at hx
      rw [List.length_cons]
      by_cases hb : b = 10
      · rw [if_pos hb] at hx
        rcases List.mem_cons.mp hx with h1 | h2
        · subst h1; omega
        · have := ih (g + 1) x h2; omega
      · rw [if_neg hb] at hx
        have := ih (g + 1) x hx
        omega

lemma lineStartsFromBytes_chain (c : List Nat) (g : Nat) :
    List.Chain' (· < ·) (lineStartsFromBytes c g) := by
  induction c generalizing g with
  | nil => simp [lineStartsFromBytes]
  | cons b rest ih =>
      simp only [lineStartsFromBytes]
      by_cases hb : b = 10
      · rw [if_pos hb]
        refine List.chain'_cons'.mpr ⟨?_, ih (g + 1)⟩
        intro y hy
        exact (lineStartsFromBytes_mem rest (g + 1) y (List.mem_of_mem_head? hy)).1
      · rw [if_neg hb]
        exact ih (g + 1)

lemma lineStartsFromBytes_length (c : List Nat) (g : Nat) :
    (lineStartsFromBytes c g).length = c.count 10 := by
  induction c generalizing g with
  | nil => simp [lineStartsFromBytes]
  | cons b rest ih =>
      simp only [lineStartsFromBytes]
      by_cases hb : b = 10
      · rw [if_pos hb]
        simp [List.count_cons, hb, ih]
      · rw [if_neg hb]
        simp [List.count_cons, hb, ih]

lemma lineStartsFromBytes_mem_iff (c : List Nat) (g k : Nat) :
    k ∈ lineStartsFromBytes c g ↔ ∃ j, c.get? j = some 10 ∧ k = g + j + 1 := by
  induction c generalizing g with
  | nil => simp [lineStartsFromBytes]
  | cons b rest ih =>
      simp only [lineStartsFromBytes]
      by_cases hb : b = 10
      · rw [if_pos hb]
        constructor
        · intro hx
          rcases List.mem_cons.mp hx with h1 | h2
          · exact ⟨0, by simp [hb], by omega⟩
          · obtain ⟨j, hj, hk⟩ := (ih (g + 1)).mp h2
            exact ⟨j + 1, by simpa using hj, by omega⟩
        · rintro ⟨j, hj, hk⟩
          cases j with
          | zero => subst hk; simp
          | succ j =>
              refine List.mem_cons.mpr (Or.inr ?_)
              exact (ih (g + 1)).mpr ⟨j, by simpa using hj, by omega⟩
      · rw [if_neg hb, ih (g + 1)]
        constructor
        · rintro ⟨j, hj, hk⟩
          exact ⟨j + 1, by simpa using hj, by omega⟩
        · rintro ⟨j, hj, hk⟩
          cases j with
          | zero => simp at hj; exact absurd hj hb
          | succ j => exact ⟨j, by simpa using hj, by omega⟩

/-- Claim C5: after rebuildLineStarts the line index starts with 0, is
strictly increasing, never exceeds the document length, has exactly one
entry per newline byte plus the initial 0, and the newline at global
offset g contributes exactly the entry g + 1. -/
theorem lineStarts_invariants (pt : PieceTable) (h : pt.Bounded) :
    (rebuildLineStarts pt).head? = some 0 ∧
    List.Chain' (· < ·) (rebuildLineStarts pt) ∧
    (∀ x ∈ rebuildLineStarts pt, x ≤ pt.length) ∧
    (rebuildLineStarts pt).length = pt.content.count 10 + 1 ∧
    (∀ g, g + 1 ∈ (rebuildLineStarts pt).tail ↔ pt.content.get? g = some 10) := by
  refine ⟨rfl, ?_, ?_, ?_, ?_⟩
  · rw [rebuildLineStarts]
    refine List.chain'_cons'.mpr ⟨?_, lineStartsFromBytes_chain _ _⟩
    intro y hy
    exact (lineStartsFromBytes_mem _ _ y (List.mem_of_mem_head? hy)).1
  · intro x hx
    rw [rebuildLineStarts] at hx
    rcases List.mem_cons.mp hx with h1 | h2
    · subst h1; exact Nat.zero_le _
    · have := (lineStartsFromBytes_mem _ _ x h2).2
      rw [← content_length h]
      omega
  · rw [rebuildLineStarts, List.length_cons, lineStartsFromBytes_length]
  · intro g
    show g + 1 ∈ lineStartsFromBytes pt.content 0 ↔ _
    rw [lineStartsFromBytes_mem_iff]
    constructor
    · rintro ⟨j, hj, hk⟩
      have : j = g := by omega
      subst this
      exact hj
    · intro hg
      exact ⟨g, hg, by omega⟩

/-- Witness for C5 on "a\nb". -/
theorem lineStarts_invariants_witness :
    (rebuildLineStarts (PieceTable.initFromFile [97, 10, 98])).length
      = (PieceTable.initFromFile [97, 10, 98]).content.count 10 + 1 :=
  (lineStarts_invariants (PieceTable.initFromFile [97, 10, 98]) (by decide)).2.2.2.1

lemma umstep_savePoint_neg {u v : UndoManager} (h : UMStep u v)
    (hs : u.savePoint = -1) : v.savePoint = -1 := by
  cases h with
  | push b =>
      show (if (u.undoStack.length : Int) < u.savePoint then -1 else u.savePoint) = -1
      rw [hs]
      split <;> rfl
  | undo hc => exact hs
  | redo hc => exact hs

lemma reach_savePoint_neg {u v : UndoManager}
    (h : Relation.ReflTransGen UMStep u v) (hs : u.savePoint = -1) :
    v.savePoint = -1 := by
  induction h with
  | refl => exact hs
  | tail _ hbc ih => exact umstep_savePoint_neg hbc ih

lemma isModified_of_neg {u : UndoManager} (h : u.savePoint = -1) :
    u.isModified = true := by
  rw [UndoManager.isModified, h]
  simp only [bne_iff_ne, ne_eq]
  omega

/-- Claim C3: push clears the redo stack; and when the save point lies
beyond the current undo stack (the user undid past the save and then
edited), the state after the push and every state reachable from it by
further pushes and guarded undos/redos reports isModified, until a
markSaved (the step relation has no markSaved step). -/
theorem push_unreachable_savepoint (u : UndoManager) (b : EditBatch) :
    (u.push b).redoStack = [] ∧
    ((u.undoStack.length : Int) < u.savePoint →
      ∀ v, Relation.ReflTransGen UMStep (u.push b) v → v.isModified = true) := by
  refine ⟨rfl, ?_⟩
  intro hsp v hreach
  refine isModified_of_neg (reach_savePoint_neg hreach ?_)
  show (if (u.undoStack.length : Int) < u.savePoint then -1 else u.savePoint) = -1
  rw [if_pos hsp]

/-- Witness for C3: empty stack with savePoint 1 (save point undone past),
after one push. -/
theorem push_unreachable_savepoint_witness :
    ((⟨[], [], 1⟩ : UndoManager).push emptyBatch).redoStack = [] ∧
      ((⟨[], [], 1⟩ : UndoManager).push emptyBatch).isModified = true :=
  ⟨(push_unreachable_savepoint ⟨[], [], 1⟩ emptyBatch).1,
    (push_unreachable_savepoint ⟨[], [], 1⟩ emptyBatch).2 (by decide) _
      Relation.ReflTransGen.refl⟩

lemma bounded_applyFwdOp {pt : PieceTable} (o : EditOp) (h : pt.Bounded) :
    (applyFwdOp pt o).Bounded := by
  rcases o with ⟨t, pos, text⟩
  cases t
  · exact bounded_insert _ _ _ h
  · exact bounded_erase _ _ _ h

lemma bounded_applyInvOp {pt : PieceTable} (o : EditOp) (h : pt.Bounded) :
    (applyInvOp pt o).Bounded := by
  rcases o with ⟨t, pos, text⟩
  cases t
  · exact bounded_erase _ _ _ h
  · exact bounded_insert _ _ _ h

lemma applyFwdOps_cons (pt : PieceTable) (o : EditOp) (rest : List EditOp) :
    applyFwdOps pt (o :: rest) = applyFwdOps (applyFwdOp pt o) rest := rfl

lemma applyInvOps_cons (pt : PieceTable) (o : EditOp) (rest : List EditOp) :
    applyInvOps pt (o :: rest) = applyInvOp (applyInvOps pt rest) o := by
  rw [applyInvOps, applyInvOps, List.reverse_cons, List.foldl_append]
  rfl

lemma bounded_applyFwdOps (ops : List EditOp) {pt : PieceTable} (h : pt.Bounded) :
    (applyFwdOps pt ops).Bounded := by
  induction ops generalizing pt with
  | nil => exact h
  | cons o rest ih => exact ih (bounded_applyFwdOp o h)

lemma bounded_applyInvOps (ops : List EditOp) {pt : PieceTable} (h : pt.Bounded) :
    (applyInvOps pt ops).Bounded := by
  induction ops generalizing pt with
  | nil => exact h
  | cons o rest ih =>
      rw [applyInvOps_cons]
      exact bounded_applyInvOp o (ih h)

lemma content_applyFwdOp_congr {p q : PieceTable} (o : EditOp)
    (hp : p.Bounded) (hq : q.Bounded) (hc : p.content = q.content) :
    (applyFwdOp p o).content = (applyFwdOp q o).content := by
  rcases o with ⟨t, pos, text⟩
  cases t
  · show (p.insert pos text).content = (q.insert pos text).content
    rw [content_insert _ _ _ hp, content_insert _ _ _ hq, hc]
  · show (p.erase pos text.length).content = (q.erase pos text.length).content
    rw [content_erase _ _ _ hp, content_erase _ _ _ hq, hc]

lemma content_applyFwdOps_congr (ops : List EditOp) {p q : PieceTable}
    (hp : p.Bounded) (hq : q.Bounded) (hc : p.content = q.content) :
    (applyFwdOps p ops).content = (applyFwdOps q ops).content := by
  induction ops generalizing p q with
  | nil => exact hc
  | cons o rest ih =>
      rw [applyFwdOps_cons, applyFwdOps_cons]
      exact ih (bounded_applyFwdOp o hp) (bounded_applyFwdOp o hq)
        (content_applyFwdOp_congr o hp hq hc)

lemma undo_restores {pt0 : PieceTable} {ops : List EditOp} (hv : ValidOps pt0 ops) :
    pt0.Bounded → ∀ q : PieceTable, q.Bounded →
      q.content = (applyFwdOps pt0 ops).content →
      (applyInvOps q ops).content = pt0.content := by
  induction hv with
  | nil pt =>
      intro hB q hq hc
      simpa [applyInvOps, applyFwdOps] using hc
  | insert pt pos text rest hpos hrest ih =>
      intro hB q hq hc
      have hB1 : (pt.insert pos text).Bounded := bounded_insert _ _ _ hB
      rw [applyInvOps_cons]
      have hq2 : (applyInvOps q rest).content = (pt.insert pos text).content :=
        ih hB1 q hq (by rw [hc, applyFwdOps_cons]; rfl)
      have hqB : (applyInvOps q rest).Bounded := bounded_applyInvOps rest hq
      show ((applyInvOps q rest).erase pos text.length).content = pt.content
      rw [content_erase _ _ _ hqB, hq2, content_insert _ _ _ hB]
      have hA : (pt.content.take pos).length = pos := by
        rw [List.length_take, content_length hB]
        omega
      have e1 : (pt.content.take pos ++ (text ++ pt.content.drop pos)).take pos
          = pt.content.take pos := List.take_left' hA
      have e2 : (pt.content.take pos ++ (text ++ pt.content.drop pos)).drop
          (pos + text.length) = pt.content.drop pos := by
        rw [← List.append_assoc]
        refine List.drop_left' ?_
        rw [List.length_append, hA]
      rw [List.append_assoc, e1, e2, List.take_append_drop]
  | erase pt pos text rest htext hrest ih =>
      intro hB q hq hc
      have hB1 : (pt.erase pos text.length).Bounded := bounded_erase _ _ _ hB
      rw [applyInvOps_cons]
      have hq2 : (applyInvOps q rest).content = (pt.erase pos text.length).content :=
        ih hB1 q hq (by rw [hc, applyFwdOps_cons]; rfl)
      have hqB : (applyInvOps q rest).Bounded := bounded_applyInvOps rest hq
      show ((applyInvOps q rest).insert pos text).content = pt.content
      rw [content_insert _ _ _ hqB, hq2, content_erase _ _ _ hB]
      obtain ⟨n, hn⟩ : ∃ n, text.length = n := ⟨_, rfl⟩
      rw [hn] at htext ⊢
      by_cases hle : pos ≤ pt.content.length
      · have hA : (pt.content.take pos).length = pos := by
          rw [List.length_take]
          omega
        have e1 : (pt.content.take pos ++ pt.content.drop (pos + n)).take pos
            = pt.content.take pos := List.take_left' hA
        have e2 : (pt.content.take pos ++ pt.content.drop (pos + n)).drop pos
            = pt.content.drop (pos + n) := by
          rw [List.drop_append_eq_append_drop, hA,
            List.drop_of_length_le (le_of_eq hA), Nat.sub_self]
          simp
        have e4 : pt.content.drop (pos + n) = (pt.content.drop pos).drop n :=
          (List.drop_drop n pos pt.content).symm
        rw [e1, e2, htext, e4, List.append_assoc, List.take_append_drop,
          List.take_append_drop]
      · have hc1 : pt.content.take pos = pt.content :=
          List.take_of_length_le (by omega)
        have hc2 : pt.content.drop (pos + n) = [] :=
          List.drop_of_length_le (by omega)
        have hc3 : pt.content.drop pos = [] :=
          List.drop_of_length_le (by omega)
        have hc4 : text = [] := by
          rw [htext, hc3]
          simp
        simp [hc1, hc2, hc3, hc4]

lemma performUndo_eval (st : EditorSt) (stack : List EditBatch) (b : EditBatch)
    (h : st.undo.undoStack = stack ++ [b]) :
    (performUndo st).pt = applyInvOps st.pt b.ops ∧
    (performUndo st).undo.undoStack = stack ∧
    (performUndo st).undo.redoStack = st.undo.redoStack ++ [b] := by
  rw [performUndo, if_neg (by rw [UndoManager.canUndo, h]; simp)]
  refine ⟨?_, ?_, ?_⟩ <;>
    simp [UndoManager.popUndo, h, List.getLastD_concat, List.dropLast_concat]

lemma performRedo_eval (st : EditorSt) (stack : List EditBatch) (b : EditBatch)
    (h : st.undo.redoStack = stack ++ [b]) :
    (performRedo st).pt = applyFwdOps st.pt b.ops ∧
    (performRedo st).undo.undoStack = st.undo.undoStack ++ [b] ∧
    (performRedo st).undo.redoStack = stack := by
  rw [performRedo, if_neg (by rw [UndoManager.canRedo, h]; simp)]
  refine ⟨?_, ?_, ?_⟩ <;>
    simp [UndoManager.popRedo, h, List.getLastD_concat, List.dropLast_concat]

/-- Claim C2: for any batch an intent can produce (its ops replay
consistently from some pre-state), performUndo then performRedo leaves the
document bytes unchanged, and performRedo then performUndo leaves the
document bytes unchanged; undo replays the ops inverted in reverse order
with the stored bytes, redo replays them in stored order. -/
theorem undo_redo_roundtrip (pt0 : PieceTable) (b : EditBatch)
    (hB : pt0.Bounded) (hv : ValidOps pt0 b.ops) :
    (∀ (st : EditorSt) (stack : List EditBatch), st.pt.Bounded →
      st.undo.undoStack = stack ++ [b] →
      st.pt.content = (applyFwdOps pt0 b.ops).content →
      (performRedo (performUndo st)).pt.content = st.pt.content) ∧
    (∀ (st : EditorSt) (stack : List EditBatch), st.pt.Bounded →
      st.undo.redoStack = stack ++ [b] →
      st.pt.content = pt0.content →
      (performUndo (performRedo st)).pt.content = st.pt.content) := by
  constructor
  · intro st stack hstB hstack hcontent
    obtain ⟨e1, e2, e3⟩ := performUndo_eval st stack b hstack
    obtain ⟨f1, f2, f3⟩ := performRedo_eval (performUndo st) st.undo.redoStack b e3
    rw [f1, e1]
    have hinvB : (applyInvOps st.pt b.ops).Bounded := bounded_applyInvOps _ hstB
    have hinvC : (applyInvOps st.pt b.ops).content = pt0.content :=
      undo_restores hv hB st.pt hstB hcontent
    rw [content_applyFwdOps_congr b.ops hinvB hB hinvC]
    exact hcontent.symm
  · intro st stack hstB hstack hcontent
    obtain ⟨e1, e2, e3⟩ := performRedo_eval st stack b hstack
    obtain ⟨f1, f2, f3⟩ := performUndo_eval (performRedo st) st.undo.undoStack b e2
    rw [f1, e1]
    have hfwdB : (applyFwdOps st.pt b.ops).Bounded := bounded_applyFwdOps _ hstB
    have hcongr : (applyFwdOps st.pt b.ops).content = (applyFwdOps pt0 b.ops).content :=
      content_applyFwdOps_congr b.ops hstB hB hcontent
    rw [undo_restores hv hB (applyFwdOps st.pt b.ops) hfwdB hcongr]
    exact hcontent.symm

/-- Witness for C2 on the single-insert batch. -/
theorem undo_redo_roundtrip_witness :
    (performRedo (performUndo sampleUndoEditor)).pt.content
        = sampleUndoEditor.pt.content ∧
      (performUndo (performRedo sampleRedoEditor)).pt.content
        = sampleRedoEditor.pt.content :=
  ⟨(undo_redo_roundtrip PieceTable.initEmpty sampleBatch (by decide)
      (ValidOps.insert _ 0 [104] [] (by decide) (ValidOps.nil _))).1
      sampleUndoEditor [] (by decide) rfl (by decide),
    (undo_redo_roundtrip PieceTable.initEmpty sampleBatch (by decide)
      (ValidOps.insert _ 0 [104] [] (by decide) (ValidOps.nil _))).2
      sampleRedoEditor [] (by decide) rfl rfl⟩

/-- Claim C7 (scenario S2): pasting "X" at the collapsed cursors 0, 2 and 4
of "a\nb\nc\n" (multi-caret paste runs insertAtCursors in descending start
order) produces "Xa\nXb\nXc\n" and leaves the three cursors at byte
offsets 1, 4 and 7. -/
theorem multi_caret_paste_scenario :
    (insertAtCursors scenarioPasteEditor [88]).pt.content
        = [88, 97, 10, 88, 98, 10, 88, 99, 10] ∧
      (insertAtCursors scenarioPasteEditor [88]).cursors
        = [⟨1, 1⟩, ⟨4, 4⟩, ⟨7, 7⟩] := by
  decide

/-- Counterexample to claim C8: on "A\nB" with the cursor on line 0,
move-line-down produces the three bytes "B\nA"; no trailing newline is
synthesized, so the document is not "B\nA\n". -/
theorem move_line_down_counterexample :
    (moveLines scenarioMoveEditor false).pt.content = [66, 10, 65] ∧
      ¬(moveLines scenarioMoveEditor false).pt.content = [66, 10, 65, 10] := by
  decide

/-- Claim C8 as amended: on "A\nB" with a single cursor on line 0,
move-line-down produces "B\nA" (the separating newline travels with the
swap and none is synthesized) and the cursor ends on the "A" line, which
is now line 1. -/
theorem move_line_down_scenario :
    (moveLines scenarioMoveEditor false).pt.content = [66, 10, 65] ∧
      (moveLines scenarioMoveEditor false).cursors = [⟨2, 2⟩] ∧
      getLineIdx (moveLines scenarioMoveEditor false)
        ((moveLines scenarioMoveEditor false).cursors.getD 0 ⟨0, 0⟩).head = 1 := by
  decide

/-- Claim C9: with regex mode enabled and a query the regex engine fails to
compile (the catch arms of the source), findText reports no match and
replaceAll returns the whole editor state untouched: document bytes,
cursor set and undo stack included. -/
theorem invalid_regex_no_effect (eng : RegexEngine) (st : EditorSt)
    (startPos : Nat) (fwd : Bool)
    (hr : st.searchRegex = true)
    (hc : eng.compile st.searchQuery (!st.searchMatchCase) = none) :
    findText eng st.pt startPos st.searchQuery fwd st.searchMatchCase
        st.searchWholeWord true = none ∧
      replaceAll eng st = st := by
  constructor
  · rw [findText]
    by_cases hq : st.searchQuery.isEmpty
    · rw [if_pos hq]
    · rw [if_neg hq]
      simp only [if_pos rfl, hc]
      simp
  · rw [replaceAll]
    by_cases hq : st.searchQuery.isEmpty
    · rw [if_pos hq]
    · rw [if_neg hq]
      simp only [hr, if_pos rfl, hc]
      simp

/-- Witness for C9: the all-rejecting engine on the query "[". -/
theorem invalid_regex_no_effect_witness :
    (findText failEngine scenarioRegexEditor.pt 0 scenarioRegexEditor.searchQuery
        true scenarioRegexEditor.searchMatchCase scenarioRegexEditor.searchWholeWord
        true = none) ∧
      replaceAll failEngine scenarioRegexEditor = scenarioRegexEditor :=
  invalid_regex_no_effect failEngine scenarioRegexEditor 0 true rfl rfl

end Miu
